import Mathlib

/-!
Verification of the ez-cmd data-management layer (src/ez_cmd/config.py).

The Python module stores two dictionaries: `commands`, mapping a command
name to an ordered list of shell command strings, and `aliases`, mapping
an alias name to the primary command name it targets.  Python dictionaries
are embedded as association lists `List (String × v)`: insertion order is
preserved, assignment replaces the value in place (or appends a fresh key
at the end), and deletion removes the binding, exactly as `dict` behaves.
Since a Python dictionary cannot hold a key twice, states produced by the
program always have nodup key lists; theorems that need this fact take it
as an explicit hypothesis.
-/

namespace EzCmd

/-- RESERVED_COMMANDS from config.py: command names that cannot be saved. -/
def RESERVED_COMMANDS : List String :=
  ["save", "list", "update", "delete", "append", "pop", "alias",
   "rename", "ls", "a", "d", "r", "s", "u", "replay"]

/-- getKey models Python `d.get(k)`: the value at the first binding of `k`. -/
def getKey {α : Type} : List (String × α) → String → Option α
  | [], _ => none
  | p :: rest, k => if p.1 == k then some p.2 else getKey rest k

/-- hasKey models Python `k in d`. -/
def hasKey {α : Type} (m : List (String × α)) (k : String) : Bool :=
  (getKey m k).isSome

/-- setKey models Python `d[k] = v`: replace in place if the key is
present, append at the end otherwise. -/
def setKey {α : Type} : List (String × α) → String → α → List (String × α)
  | [], k, v => [(k, v)]
  | p :: rest, k, v => if p.1 == k then (k, v) :: rest else p :: setKey rest k v

/-- delKey models Python `del d[k]`. -/
def delKey {α : Type} : List (String × α) → String → List (String × α)
  | [], _ => []
  | p :: rest, k => if p.1 == k then delKey rest k else p :: delKey rest k

/-- CmdMap is the type of the `commands` dictionary. -/
abbrev CmdMap := List (String × List String)

/-- AliasMap is the type of the `aliases` dictionary. -/
abbrev AliasMap := List (String × String)

/-- EZState is the in-memory state of `Config`: its two dictionaries. -/
structure EZState where
  commands : CmdMap
  aliases : AliasMap
deriving DecidableEq, Repr

/-- Config._get_primary_name: `self.aliases.get(name, name)`. -/
def getPrimaryName (s : EZState) (name : String) : String :=
  (getKey s.aliases name).getD name

/-- Config._get_all_aliases: all alias names whose target is
`primaryName`, in dictionary order. -/
def getAllAliases (s : EZState) (primaryName : String) : List String :=
  (s.aliases.filter (fun p => p.2 == primaryName)).map Prod.fst

/-- Config._remove_command_aliases: delete every alias whose target is
`primaryName`. -/
def removeCommandAliases (aliases : AliasMap) (primaryName : String) : AliasMap :=
  aliases.filter (fun p => !(p.2 == primaryName))

/-- CommandValidator.is_valid_new_name. -/
def isValidNewName (name : String) (commands : CmdMap) (aliases : AliasMap) : Bool :=
  !(RESERVED_COMMANDS.contains name) && !(hasKey commands name) && !(hasKey aliases name)

/-- CommandValidator.is_valid_existing_name. -/
def isValidExistingName (name : String) (commands : CmdMap) : Bool :=
  hasKey commands name

/-- Config.add_command: `self.commands[name] = [command]`, no validation. -/
def addCommand (s : EZState) (name command : String) : EZState :=
  { s with commands := setKey s.commands name [command] }

/-- Config.update_command. -/
def updateCommand (s : EZState) (name command : String) : Bool × EZState :=
  let primaryName := getPrimaryName s name
  if !(isValidExistingName primaryName s.commands) then (false, s)
  else (true, { s with commands := setKey s.commands primaryName [command] })

/-- Config.delete_command: remove the resolved command entry and every
alias targeting it. -/
def deleteCommand (s : EZState) (name : String) : Bool × EZState :=
  let primaryName := getPrimaryName s name
  if !(isValidExistingName primaryName s.commands) then (false, s)
  else (true, { commands := delKey s.commands primaryName,
                aliases := removeCommandAliases s.aliases primaryName })

/-- Config.copy_command. -/
def copyCommand (s : EZState) (oldName newName : String) : Bool × EZState :=
  if !(isValidNewName newName s.commands s.aliases) then (false, s)
  else
    let primaryName := getPrimaryName s oldName
    if !(isValidExistingName primaryName s.commands) then (false, s)
    else (true, { s with
                  commands := setKey s.commands newName
                    ((getKey s.commands primaryName).getD []) })

/-- Config.rename_command: repoint every alias of the old primary to the
new name, then move the command list to the new key. -/
def renameCommand (s : EZState) (oldName newName : String) : Bool × EZState :=
  let oldPrimary := getPrimaryName s oldName
  if !(isValidExistingName oldPrimary s.commands) ||
     !(isValidNewName newName s.commands s.aliases) then (false, s)
  else
    (true, { commands := setKey (delKey s.commands oldPrimary) newName
               ((getKey s.commands oldPrimary).getD []),
             aliases := s.aliases.map
               (fun p => if p.2 == oldPrimary then (p.1, newName) else p) })

/-- Config.append_command. -/
def appendCommand (s : EZState) (name command : String) : Bool × EZState :=
  let primaryName := getPrimaryName s name
  if !(isValidExistingName primaryName s.commands) then (false, s)
  else (true, { s with
                commands := setKey s.commands primaryName
                  (((getKey s.commands primaryName).getD []) ++ [command]) })

/-- Config.pop_command: drop the last element of the resolved sequence;
if the sequence becomes empty, call delete_command on the primary. -/
def popCommand (s : EZState) (name : String) : Bool × EZState :=
  let primaryName := getPrimaryName s name
  if !(isValidExistingName primaryName s.commands) ||
     ((getKey s.commands primaryName).getD []).isEmpty then (false, s)
  else
    let popped := ((getKey s.commands primaryName).getD []).dropLast
    let s' : EZState := { s with commands := setKey s.commands primaryName popped }
    if popped.isEmpty then (true, (deleteCommand s' primaryName).2)
    else (true, s')

/-- Config.add_alias. -/
def addAlias (s : EZState) (commandName aliasName : String) : Bool × EZState :=
  let primaryName := getPrimaryName s commandName
  if !(isValidExistingName primaryName s.commands) ||
     !(isValidNewName aliasName s.commands s.aliases) then (false, s)
  else (true, { s with aliases := setKey s.aliases aliasName primaryName })

/-- Config.remove_alias: `self.aliases.get(alias) != primary_name` fails. -/
def removeAlias (s : EZState) (commandName aliasName : String) : Bool × EZState :=
  let primaryName := getPrimaryName s commandName
  if !(isValidExistingName primaryName s.commands) ||
     !(getKey s.aliases aliasName == some primaryName) then (false, s)
  else (true, { s with aliases := delKey s.aliases aliasName })

/-- Config.get_command: resolve the name, then look it up. -/
def getCommand (s : EZState) (name : String) : Option (List String) :=
  getKey s.commands (getPrimaryName s name)

/-- storeInv is the data-model invariant stated in the spec: every alias
target is an existing command key, no name is both a command key and an
alias key, and no reserved word is a key of either dictionary. -/
def storeInv (s : EZState) : Prop :=
  (∀ p ∈ s.aliases, hasKey s.commands p.2 = true) ∧
  (∀ p ∈ s.aliases, hasKey s.commands p.1 = false) ∧
  (∀ r ∈ RESERVED_COMMANDS, hasKey s.commands r = false ∧ hasKey s.aliases r = false)

instance (s : EZState) : Decidable (storeInv s) := by
  unfold storeInv; infer_instance

/-! Store layer: ConfigFileManager from config.py.  The backing file is
modelled by its observable parse outcome: absent (read_text raises
FileNotFoundError), malformed (json.loads raises JSONDecodeError), or a
parsed JSON object carrying optional commands and aliases fields.  A
commands value may be a plain string (legacy shape) or a list of strings.
Serialisation by json.dumps followed by json.loads is the identity on
such string-keyed documents, so saveData produces the parsed document
directly. -/

/-- CmdVal is the persisted shape of one commands entry: legacy single
string, or list of strings. -/
inductive CmdVal where
  | str (s : String)
  | vlist (l : List String)
deriving DecidableEq, Repr

/-- RawDoc is a parsed config.json object: data.get returns the field
when present. -/
structure RawDoc where
  commandsField : Option (List (String × CmdVal))
  aliasesField : Option (List (String × String))
deriving DecidableEq, Repr

/-- FileContent is the state of the backing file as load_data observes it. -/
inductive FileContent where
  | absent
  | malformed (text : String)
  | doc (d : RawDoc)
deriving DecidableEq, Repr

/-- normalizeCmdVal is the backward-compatibility step of load_data: a
string value becomes a one-element list. -/
def normalizeCmdVal : CmdVal → List String
  | CmdVal.str s => [s]
  | CmdVal.vlist l => l

/-- ConfigFileManager.load_data: parse the file; JSONDecodeError yields
the empty document; a missing file raises (FileNotFoundError is not
caught there). -/
def loadData : FileContent → Except String (CmdMap × AliasMap)
  | FileContent.absent => Except.error "FileNotFoundError"
  | FileContent.malformed _ => Except.ok ([], [])
  | FileContent.doc d =>
      Except.ok ((d.commandsField.getD []).map (fun p => (p.1, normalizeCmdVal p.2)),
                 d.aliasesField.getD [])

/-- ConfigFileManager.save_data: write the document with both fields,
command values as lists. -/
def saveData (commands : CmdMap) (aliases : AliasMap) : FileContent :=
  FileContent.doc
    { commandsField := some (commands.map (fun p => (p.1, CmdVal.vlist p.2))),
      aliasesField := some aliases }

/-- ConfigFileManager.ensure_config_exists: create the empty document
when the file is absent, leave it alone otherwise. -/
def ensureConfigExists : FileContent → FileContent
  | FileContent.absent => saveData [] []
  | f => f


/-! Basic lemmas about the dictionary primitives. -/

theorem getKey_setKey_self {α : Type} (m : List (String × α)) (k : String) (v : α) :
    getKey (setKey m k v) k = some v := by
  induction m with
  | nil => simp [setKey, getKey]
  | cons p rest ih =>
    by_cases h : p.1 = k
    · simp [setKey, getKey, h]
    · simp [setKey, getKey, h, ih]

theorem getKey_setKey_ne {α : Type} (m : List (String × α)) (k k' : String) (v : α)
    (h : k' ≠ k) : getKey (setKey m k v) k' = getKey m k' := by
  induction m with
  | nil => simp [setKey, getKey, Ne.symm h]
  | cons p rest ih =>
    by_cases hp : p.1 = k
    · simp [setKey, getKey, hp, Ne.symm h]
    · by_cases hp' : p.1 = k'
      · simp [setKey, getKey, hp, hp', h]
      · simp [setKey, getKey, hp, hp', ih]

theorem hasKey_setKey {α : Type} (m : List (String × α)) (k k' : String) (v : α) :
    hasKey (setKey m k v) k' = (hasKey m k' || (k' == k)) := by
  by_cases h : k' = k
  · subst h; simp [hasKey, getKey_setKey_self]
  · simp [hasKey, getKey_setKey_ne m k k' v h, h]

theorem hasKey_setKey_of_hasKey {α : Type} (m : List (String × α)) (k k' : String) (v : α)
    (h : hasKey m k = true) : hasKey (setKey m k v) k' = hasKey m k' := by
  rw [hasKey_setKey]
  by_cases hk : k' = k
  · subst hk; simp [h]
  · simp [hk]

theorem getKey_delKey_self {α : Type} (m : List (String × α)) (k : String) :
    getKey (delKey m k) k = none := by
  induction m with
  | nil => simp [delKey, getKey]
  | cons p rest ih =>
    by_cases h : p.1 = k
    · simp [delKey, h, ih]
    · simp [delKey, getKey, h, ih]

theorem getKey_delKey_ne {α : Type} (m : List (String × α)) (k k' : String)
    (h : k' ≠ k) : getKey (delKey m k) k' = getKey m k' := by
  induction m with
  | nil => simp [delKey]
  | cons p rest ih =>
    by_cases hp : p.1 = k
    · simp [delKey, getKey, hp, Ne.symm h, ih]
    · by_cases hp' : p.1 = k'
      · simp [delKey, getKey, hp, hp', h]
      · simp [delKey, getKey, hp, hp', ih]

theorem hasKey_delKey {α : Type} (m : List (String × α)) (k k' : String) :
    hasKey (delKey m k) k' = (hasKey m k' && !(k' == k)) := by
  by_cases h : k' = k
  · subst h; simp [hasKey, getKey_delKey_self]
  · simp [hasKey, getKey_delKey_ne m k k' h, h]

theorem getKey_eq_some_of_hasKey {α : Type} (m : List (String × α)) (k : String)
    (h : hasKey m k = true) : ∃ v, getKey m k = some v := by
  unfold hasKey at h
  cases hg : getKey m k with
  | none => rw [hg] at h; simp at h
  | some v => exact ⟨v, rfl⟩

theorem hasKey_of_getKey_eq_some {α : Type} (m : List (String × α)) (k : String) (v : α)
    (h : getKey m k = some v) : hasKey m k = true := by
  unfold hasKey; rw [h]; rfl

theorem getKey_eq_none_of_not_hasKey {α : Type} (m : List (String × α)) (k : String)
    (h : hasKey m k = false) : getKey m k = none := by
  unfold hasKey at h
  cases hg : getKey m k with
  | none => rfl
  | some v => rw [hg] at h; simp at h

theorem mem_of_getKey_eq_some {α : Type} (m : List (String × α)) (k : String) (v : α)
    (h : getKey m k = some v) : (k, v) ∈ m := by
  induction m with
  | nil => simp [getKey] at h
  | cons p rest ih =>
    cases p with
    | mk a b =>
      by_cases hp : a = k
      · simp [getKey, hp] at h
        simp [hp, h]
      · simp [getKey, hp] at h
        exact List.mem_cons_of_mem _ (ih h)

theorem hasKey_of_mem {α : Type} (m : List (String × α)) (p : String × α)
    (h : p ∈ m) : hasKey m p.1 = true := by
  induction m with
  | nil => simp at h
  | cons q rest ih =>
    rcases List.mem_cons.mp h with h' | h'
    · subst h'; simp [hasKey, getKey]
    · by_cases hq : q.1 = p.1
      · simp [hasKey, getKey, hq]
      · simpa [hasKey, getKey, hq] using ih h'

theorem mem_setKey {α : Type} (m : List (String × α)) (k : String) (v : α)
    (p : String × α) (h : p ∈ setKey m k v) : p ∈ m ∨ p = (k, v) := by
  induction m with
  | nil => simp [setKey] at h; right; exact h
  | cons q rest ih =>
    by_cases hq : q.1 = k
    · simp [setKey, hq] at h
      rcases h with h | h
      · right; exact h
      · left; exact List.mem_cons_of_mem _ h
    · simp [setKey, hq] at h
      rcases h with h | h
      · left; subst h; exact List.mem_cons_self _ _
      · rcases ih h with h' | h'
        · left; exact List.mem_cons_of_mem _ h'
        · right; exact h'

theorem getKey_of_mem_nodup {α : Type} (m : List (String × α)) (k : String) (v : α)
    (hnd : (m.map Prod.fst).Nodup) (h : (k, v) ∈ m) : getKey m k = some v := by
  induction m with
  | nil => simp at h
  | cons q rest ih =>
    simp only [List.map_cons, List.nodup_cons] at hnd
    rcases List.mem_cons.mp h with h' | h'
    · rw [← h']; simp [getKey]
    · have hq : q.1 ≠ k := by
        intro hk
        exact hnd.1 (by
          rw [hk]
          exact List.mem_map.mpr ⟨(k, v), h', rfl⟩)
      simp [getKey, hq]
      exact ih hnd.2 h'

theorem not_mem_of_contains_false (l : List String) (x : String)
    (h : l.contains x = false) : x ∉ l := by
  intro hx
  simp [hx] at h

theorem hasKey_filter_le {α : Type} (m : List (String × α)) (f : String × α → Bool)
    (k : String) (h : hasKey (m.filter f) k = true) : hasKey m k = true := by
  obtain ⟨v, hv⟩ := getKey_eq_some_of_hasKey _ _ h
  have hm := mem_of_getKey_eq_some _ _ _ hv
  exact hasKey_of_mem m (k, v) (List.mem_filter.mp hm).1

theorem hasKey_repoint (m : AliasMap) (t n k : String) :
    hasKey (m.map (fun p => if p.2 == t then (p.1, n) else p)) k = hasKey m k := by
  induction m with
  | nil => rfl
  | cons p rest ih =>
    by_cases hp2 : p.2 = t <;> by_cases hk : p.1 = k <;>
      simp [hasKey, getKey, hp2, hk] <;>
      simpa [hasKey] using ih

theorem repoint_filter (al : AliasMap) (op nn : String)
    (hnone : ∀ p ∈ al, ¬(p.2 = nn)) :
    ((al.map (fun p => if p.2 == op then (p.1, nn) else p)).filter
        (fun p => p.2 == nn)).map Prod.fst
      = (al.filter (fun p => p.2 == op)).map Prod.fst := by
  induction al with
  | nil => rfl
  | cons q rest ih =>
    have hq_ne : ¬(q.2 = nn) := hnone q (List.mem_cons_self _ _)
    have ih' := ih (fun p hp => hnone p (List.mem_cons_of_mem _ hp))
    by_cases hq : q.2 = op
    · simp [hq]
      simpa using ih'
    · simp [hq, hq_ne]
      simpa using ih'

theorem mem_delKey {α : Type} (m : List (String × α)) (k : String) (p : String × α)
    (h : p ∈ delKey m k) : p ∈ m := by
  induction m with
  | nil => simpa [delKey] using h
  | cons q rest ih =>
    by_cases hq : q.1 = k
    · simp [delKey, hq] at h
      exact List.mem_cons_of_mem _ (ih h)
    · simp [delKey, hq] at h
      rcases h with h | h
      · simp [h]
      · exact List.mem_cons_of_mem _ (ih h)

theorem storeInv_setKey_commands_existing (s : EZState) (k : String) (v : List String)
    (hinv : storeInv s) (hk : hasKey s.commands k = true) :
    storeInv { s with commands := setKey s.commands k v } := by
  obtain ⟨h1, h2, h3⟩ := hinv
  refine ⟨?_, ?_, ?_⟩
  · intro p hp
    show hasKey (setKey s.commands k v) p.2 = true
    rw [hasKey_setKey_of_hasKey s.commands k p.2 v hk]
    exact h1 p hp
  · intro p hp
    show hasKey (setKey s.commands k v) p.1 = false
    rw [hasKey_setKey_of_hasKey s.commands k p.1 v hk]
    exact h2 p hp
  · intro r hr
    refine ⟨?_, (h3 r hr).2⟩
    show hasKey (setKey s.commands k v) r = false
    rw [hasKey_setKey_of_hasKey s.commands k r v hk]
    exact (h3 r hr).1

theorem storeInv_setKey_commands_new (s : EZState) (k : String) (v : List String)
    (hinv : storeInv s)
    (hres : RESERVED_COMMANDS.contains k = false)
    (hcm : hasKey s.commands k = false)
    (hal : hasKey s.aliases k = false) :
    storeInv { s with commands := setKey s.commands k v } := by
  obtain ⟨h1, h2, h3⟩ := hinv
  refine ⟨?_, ?_, ?_⟩
  · intro p hp
    show hasKey (setKey s.commands k v) p.2 = true
    rw [hasKey_setKey]
    simp [h1 p hp]
  · intro p hp
    have hne : p.1 ≠ k := by
      intro he
      have hmem := hasKey_of_mem s.aliases p hp
      rw [he] at hmem
      simp [hal] at hmem
    show hasKey (setKey s.commands k v) p.1 = false
    rw [hasKey_setKey]
    simp [h2 p hp, hne]
  · intro r hr
    have hne : r ≠ k := by
      intro he
      exact not_mem_of_contains_false _ _ hres (he ▸ hr)
    refine ⟨?_, (h3 r hr).2⟩
    show hasKey (setKey s.commands k v) r = false
    rw [hasKey_setKey]
    simp [(h3 r hr).1, hne]

theorem storeInv_deleteCommand (s : EZState) (n : String) (hinv : storeInv s) :
    storeInv (deleteCommand s n).2 := by
  obtain ⟨h1, h2, h3⟩ := hinv
  cases hv : isValidExistingName (getPrimaryName s n) s.commands
  · simpa [deleteCommand, hv] using ⟨h1, h2, h3⟩
  · simp only [deleteCommand, hv]
    simp only [Bool.not_true, Bool.false_eq_true, if_false]
    refine ⟨?_, ?_, ?_⟩
    · intro p hp
      have hmem := (List.mem_filter.mp hp).1
      have hne : (p.2 == getPrimaryName s n) = false := by
        have := (List.mem_filter.mp hp).2
        simpa using this
      show hasKey (delKey s.commands (getPrimaryName s n)) p.2 = true
      rw [hasKey_delKey]
      simp [h1 p hmem, hne]
    · intro p hp
      have hmem := (List.mem_filter.mp hp).1
      show hasKey (delKey s.commands (getPrimaryName s n)) p.1 = false
      rw [hasKey_delKey]
      simp [h2 p hmem]
    · intro r hr
      constructor
      · show hasKey (delKey s.commands (getPrimaryName s n)) r = false
        rw [hasKey_delKey]
        simp [(h3 r hr).1]
      · show hasKey (removeCommandAliases s.aliases (getPrimaryName s n)) r = false
        cases hk : hasKey (removeCommandAliases s.aliases (getPrimaryName s n)) r
        · rfl
        · have := hasKey_filter_le s.aliases _ r hk
          rw [(h3 r hr).2] at this
          cases this

theorem storeInv_updateCommand (s : EZState) (n c : String) (hinv : storeInv s) :
    storeInv (updateCommand s n c).2 := by
  cases hv : isValidExistingName (getPrimaryName s n) s.commands
  · simpa [updateCommand, hv] using hinv
  · have := storeInv_setKey_commands_existing s (getPrimaryName s n) [c] hinv hv
    simpa [updateCommand, hv] using this

theorem storeInv_appendCommand (s : EZState) (n c : String) (hinv : storeInv s) :
    storeInv (appendCommand s n c).2 := by
  cases hv : isValidExistingName (getPrimaryName s n) s.commands
  · simpa [appendCommand, hv] using hinv
  · have := storeInv_setKey_commands_existing s (getPrimaryName s n)
      (((getKey s.commands (getPrimaryName s n)).getD []) ++ [c]) hinv hv
    simpa [appendCommand, hv] using this

theorem validNewName_split (n : String) (cm : CmdMap) (al : AliasMap)
    (h : isValidNewName n cm al = true) :
    RESERVED_COMMANDS.contains n = false ∧ hasKey cm n = false ∧ hasKey al n = false := by
  simp only [isValidNewName, Bool.and_eq_true, Bool.not_eq_true'] at h
  exact ⟨h.1.1, h.1.2, h.2⟩

theorem storeInv_copyCommand (s : EZState) (o n : String) (hinv : storeInv s) :
    storeInv (copyCommand s o n).2 := by
  cases hw : isValidNewName n s.commands s.aliases
  · simpa [copyCommand, hw] using hinv
  · cases hv : isValidExistingName (getPrimaryName s o) s.commands
    · simpa [copyCommand, hw, hv] using hinv
    · obtain ⟨w1, w2, w3⟩ := validNewName_split n s.commands s.aliases hw
      have := storeInv_setKey_commands_new s n
        ((getKey s.commands (getPrimaryName s o)).getD []) hinv w1 w2 w3
      simpa [copyCommand, hw, hv] using this

theorem storeInv_renameCommand (s : EZState) (o n : String) (hinv : storeInv s) :
    storeInv (renameCommand s o n).2 := by
  obtain ⟨h1, h2, h3⟩ := hinv
  cases hv : isValidExistingName (getPrimaryName s o) s.commands
  · simpa [renameCommand, hv] using ⟨h1, h2, h3⟩
  · cases hw : isValidNewName n s.commands s.aliases
    · simpa [renameCommand, hv, hw] using ⟨h1, h2, h3⟩
    · obtain ⟨w1, w2, w3⟩ := validNewName_split n s.commands s.aliases hw
      simp only [renameCommand, hv, hw]
      simp only [Bool.not_true, Bool.or_self, Bool.false_eq_true, if_false]
      refine ⟨?_, ?_, ?_⟩
      · intro p hp
        obtain ⟨q, hq, hfq⟩ := List.mem_map.mp hp
        show hasKey (setKey (delKey s.commands (getPrimaryName s o)) n
          ((getKey s.commands (getPrimaryName s o)).getD [])) p.2 = true
        rw [hasKey_setKey]
        by_cases hq2 : q.2 = getPrimaryName s o
        · have : p = (q.1, n) := by rw [← hfq]; simp [hq2]
          simp [this]
        · have hpq : p = q := by rw [← hfq]; simp [hq2]
          rw [hpq, hasKey_delKey]
          simp [h1 q hq, hq2]
      · intro p hp
        obtain ⟨q, hq, hfq⟩ := List.mem_map.mp hp
        have hp1 : p.1 = q.1 := by
          rw [← hfq]
          by_cases hq2 : q.2 = getPrimaryName s o <;> simp [hq2]
        have hmem := hasKey_of_mem s.aliases q hq
        have hne : q.1 ≠ n := by
          intro he
          rw [he] at hmem
          simp [w3] at hmem
        show hasKey (setKey (delKey s.commands (getPrimaryName s o)) n
          ((getKey s.commands (getPrimaryName s o)).getD [])) p.1 = false
        rw [hp1, hasKey_setKey, hasKey_delKey]
        simp [h2 q hq, hne]
      · intro r hr
        have hne : r ≠ n := by
          intro he
          exact not_mem_of_contains_false _ _ w1 (he ▸ hr)
        constructor
        · show hasKey (setKey (delKey s.commands (getPrimaryName s o)) n
            ((getKey s.commands (getPrimaryName s o)).getD [])) r = false
          rw [hasKey_setKey, hasKey_delKey]
          simp [(h3 r hr).1, hne]
        · show hasKey (s.aliases.map
            (fun p => if p.2 == getPrimaryName s o then (p.1, n) else p)) r = false
          rw [hasKey_repoint]
          exact (h3 r hr).2

theorem storeInv_popCommand (s : EZState) (n : String) (hinv : storeInv s) :
    storeInv (popCommand s n).2 := by
  cases hv : isValidExistingName (getPrimaryName s n) s.commands
  · simpa [popCommand, hv] using hinv
  · cases he : ((getKey s.commands (getPrimaryName s n)).getD []).isEmpty
    · have hs' : storeInv
          ⟨setKey s.commands (getPrimaryName s n)
            (((getKey s.commands (getPrimaryName s n)).getD []).dropLast), s.aliases⟩ :=
        storeInv_setKey_commands_existing s (getPrimaryName s n) _ hinv hv
      simp only [popCommand, hv, he]
      simp only [Bool.not_true, Bool.or_false, Bool.false_eq_true, if_false]
      split
      · exact storeInv_deleteCommand _ _ hs'
      · exact hs'
    · simpa [popCommand, hv, he] using hinv

theorem storeInv_addAlias (s : EZState) (cn al : String) (hinv : storeInv s) :
    storeInv (addAlias s cn al).2 := by
  obtain ⟨h1, h2, h3⟩ := hinv
  cases hv : isValidExistingName (getPrimaryName s cn) s.commands
  · simpa [addAlias, hv] using ⟨h1, h2, h3⟩
  · cases hw : isValidNewName al s.commands s.aliases
    · simpa [addAlias, hv, hw] using ⟨h1, h2, h3⟩
    · obtain ⟨w1, w2, w3⟩ := validNewName_split al s.commands s.aliases hw
      simp only [addAlias, hv, hw]
      simp only [Bool.not_true, Bool.or_self, Bool.false_eq_true, if_false]
      refine ⟨?_, ?_, ?_⟩
      · intro p hp
        rcases mem_setKey s.aliases al (getPrimaryName s cn) p hp with hm | hm
        · exact h1 p hm
        · rw [hm]
          exact hv
      · intro p hp
        rcases mem_setKey s.aliases al (getPrimaryName s cn) p hp with hm | hm
        · exact h2 p hm
        · rw [hm]
          exact w2
      · intro r hr
        refine ⟨(h3 r hr).1, ?_⟩
        show hasKey (setKey s.aliases al (getPrimaryName s cn)) r = false
        have hne : r ≠ al := by
          intro he
          exact not_mem_of_contains_false _ _ w1 (he ▸ hr)
        rw [hasKey_setKey]
        simp [(h3 r hr).2, hne]

theorem storeInv_removeAlias (s : EZState) (cn al : String) (hinv : storeInv s) :
    storeInv (removeAlias s cn al).2 := by
  obtain ⟨h1, h2, h3⟩ := hinv
  cases hv : isValidExistingName (getPrimaryName s cn) s.commands
  · simpa [removeAlias, hv] using ⟨h1, h2, h3⟩
  · cases hg : getKey s.aliases al == some (getPrimaryName s cn)
    · simpa [removeAlias, hv, hg] using ⟨h1, h2, h3⟩
    · simp only [removeAlias, hv, hg]
      simp only [Bool.not_true, Bool.or_self, Bool.false_eq_true, if_false]
      refine ⟨?_, ?_, ?_⟩
      · intro p hp
        exact h1 p (mem_delKey s.aliases al p hp)
      · intro p hp
        exact h2 p (mem_delKey s.aliases al p hp)
      · intro r hr
        refine ⟨(h3 r hr).1, ?_⟩
        show hasKey (delKey s.aliases al) r = false
        rw [hasKey_delKey]
        simp [(h3 r hr).2]

theorem hasKey_removeCommandAliases_self (al : AliasMap) (pr a : String)
    (hnd : (al.map Prod.fst).Nodup) (ha : getKey al a = some pr) :
    hasKey (removeCommandAliases al pr) a = false := by
  cases hk : hasKey (removeCommandAliases al pr) a
  · rfl
  · obtain ⟨v, hv⟩ := getKey_eq_some_of_hasKey _ _ hk
    have hmem2 := mem_of_getKey_eq_some _ _ _ hv
    have h2 := List.mem_filter.mp hmem2
    have hgv : getKey al a = some v := getKey_of_mem_nodup _ _ _ hnd h2.1
    rw [ha] at hgv
    have hvp : v = pr := by
      injection hgv with h
      exact h.symm
    rw [hvp] at h2
    simp at h2

/-! Claim theorems. -/

/-- Claim C1, counterexample: in the state with commands {greet: [echo hi]}
and aliases {hi: greet}, the name hi is not reserved, yet add(hi, pwd)
followed by get(hi) returns the sequence stored under greet, because get
resolves hi through the still-present alias entry.  The claim fails when
the added name is an existing alias key. -/
theorem add_then_get_cex :
    RESERVED_COMMANDS.contains "hi" = false ∧
    getCommand (addCommand ⟨[("greet", ["echo hi"])], [("hi", "greet")]⟩ "hi" "pwd") "hi"
      ≠ some ["pwd"] := by decide

/-- Claim C1 (amended): for every non-reserved name that is not a key of
the aliases map and every command string, add(name, command) followed by
get(name) returns exactly the one-element sequence [command], regardless
of the prior contents of the commands map. -/
theorem add_then_get (s : EZState) (name command : String)
    (hres : RESERVED_COMMANDS.contains name = false)
    (halias : hasKey s.aliases name = false) :
    getCommand (addCommand s name command) name = some [command] := by
  show getKey (setKey s.commands name [command]) ((getKey s.aliases name).getD name)
    = some [command]
  rw [getKey_eq_none_of_not_hasKey s.aliases name halias]
  exact getKey_setKey_self _ _ _

/-- Claim C1 witness. -/
theorem add_then_get_witness :
    getCommand (addCommand ⟨[], []⟩ "greet" "echo hello") "greet" = some ["echo hello"] :=
  add_then_get ⟨[], []⟩ "greet" "echo hello" (by decide) (by decide)

/-- Claim C9: when name is already a command key, add(name, command)
overwrites the stored sequence with [command], leaves the aliases map
unchanged, and every alias that previously resolved to name afterwards
resolves to the new one-element sequence. -/
theorem add_overwrite_frame (s : EZState) (name command : String)
    (hmem : hasKey s.commands name = true) :
    getKey (addCommand s name command).commands name = some [command] ∧
    (addCommand s name command).aliases = s.aliases ∧
    (∀ a, getPrimaryName s a = name →
      getCommand (addCommand s name command) a = some [command]) := by
  refine ⟨getKey_setKey_self _ _ _, rfl, ?_⟩
  intro a ha
  show getKey (setKey s.commands name [command]) ((getKey s.aliases a).getD a)
    = some [command]
  have : (getKey s.aliases a).getD a = name := ha
  rw [this]
  exact getKey_setKey_self _ _ _

/-- Claim C9 witness. -/
theorem add_overwrite_frame_witness :
    getCommand (addCommand ⟨[("n", ["old"])], [("h", "n")]⟩ "n" "new") "h" = some ["new"] :=
  (add_overwrite_frame ⟨[("n", ["old"])], [("h", "n")]⟩ "n" "new" (by decide)).2.2 "h" (by decide)

/-- Claim C10: remove_alias resolves its first argument before checking,
so whenever the resolved primary is an existing command and the aliases
map sends the alias to that primary, the call succeeds and deletes
exactly that alias binding; the first argument may itself be the alias
being removed, or any other alias of the same primary. -/
theorem remove_alias_resolves (s : EZState) (commandName aliasName : String)
    (hcmd : hasKey s.commands (getPrimaryName s commandName) = true)
    (hal : getKey s.aliases aliasName = some (getPrimaryName s commandName)) :
    (removeAlias s commandName aliasName).1 = true ∧
    (removeAlias s commandName aliasName).2.aliases = delKey s.aliases aliasName ∧
    (removeAlias s commandName aliasName).2.commands = s.commands := by
  unfold removeAlias isValidExistingName
  simp [hcmd, hal]

/-- Claim C10 witness: the first argument is the alias being removed. -/
theorem remove_alias_resolves_witness :
    (removeAlias ⟨[("greet", ["x"])], [("hi", "greet")]⟩ "hi" "hi").1 = true :=
  (remove_alias_resolves ⟨[("greet", ["x"])], [("hi", "greet")]⟩ "hi" "hi"
    (by decide) (by decide)).1

/-- Claim C3: whenever an operation reports failure (returns false) it
leaves both dictionaries exactly as they were; add_command never reports
failure, so the condition is vacuous for it.  Stated for every
Bool-returning operation of the mutator. -/
theorem ops_atomic_on_failure (s : EZState) :
    (∀ n c, (updateCommand s n c).1 = false → (updateCommand s n c).2 = s) ∧
    (∀ n, (deleteCommand s n).1 = false → (deleteCommand s n).2 = s) ∧
    (∀ o n, (copyCommand s o n).1 = false → (copyCommand s o n).2 = s) ∧
    (∀ o n, (renameCommand s o n).1 = false → (renameCommand s o n).2 = s) ∧
    (∀ n c, (appendCommand s n c).1 = false → (appendCommand s n c).2 = s) ∧
    (∀ n, (popCommand s n).1 = false → (popCommand s n).2 = s) ∧
    (∀ cn al, (addAlias s cn al).1 = false → (addAlias s cn al).2 = s) ∧
    (∀ cn al, (removeAlias s cn al).1 = false → (removeAlias s cn al).2 = s) := by
  refine ⟨?_, ?_, ?_, ?_, ?_, ?_, ?_, ?_⟩
  · intro n c h
    cases hv : isValidExistingName (getPrimaryName s n) s.commands
    · simp [updateCommand, hv]
    · simp [updateCommand, hv] at h
  · intro n h
    cases hv : isValidExistingName (getPrimaryName s n) s.commands
    · simp [deleteCommand, hv]
    · simp [deleteCommand, hv] at h
  · intro o n h
    cases hw : isValidNewName n s.commands s.aliases
    · simp [copyCommand, hw]
    · cases hv : isValidExistingName (getPrimaryName s o) s.commands
      · simp [copyCommand, hw, hv]
      · simp [copyCommand, hw, hv] at h
  · intro o n h
    cases hv : isValidExistingName (getPrimaryName s o) s.commands
    · simp [renameCommand, hv]
    · cases hw : isValidNewName n s.commands s.aliases
      · simp [renameCommand, hv, hw]
      · simp [renameCommand, hv, hw] at h
  · intro n c h
    cases hv : isValidExistingName (getPrimaryName s n) s.commands
    · simp [appendCommand, hv]
    · simp [appendCommand, hv] at h
  · intro n h
    cases hv : isValidExistingName (getPrimaryName s n) s.commands
    · simp [popCommand, hv]
    · cases he : ((getKey s.commands (getPrimaryName s n)).getD []).isEmpty
      · simp [popCommand, hv, he, apply_ite] at h
      · simp [popCommand, hv, he]
  · intro cn al h
    cases hv : isValidExistingName (getPrimaryName s cn) s.commands
    · simp [addAlias, hv]
    · cases hw : isValidNewName al s.commands s.aliases
      · simp [addAlias, hv, hw]
      · simp [addAlias, hv, hw] at h
  · intro cn al h
    cases hv : isValidExistingName (getPrimaryName s cn) s.commands
    · simp [removeAlias, hv]
    · cases hg : getKey s.aliases al == some (getPrimaryName s cn)
      · simp [removeAlias, hv, hg]
      · simp [removeAlias, hv, hg] at h

/-- Claim C2, counterexample: the state with commands {greet: [echo hi]}
and aliases {hi: greet} satisfies the store invariants, yet
add_command(hi, pwd) makes hi a key of both dictionaries at once:
add_command performs no validation, and its CLI caller checks only the
reserved-word set, so the add operation does not preserve the
invariants. -/
theorem mutators_preserve_invariants_cex :
    storeInv ⟨[("greet", ["echo hi"])], [("hi", "greet")]⟩ ∧
    ¬ storeInv (addCommand ⟨[("greet", ["echo hi"])], [("hi", "greet")]⟩ "hi" "pwd") := by
  decide

/-- Claim C2 (amended): every operation of the mutator except add
preserves the store invariants; add preserves them provided the added
name is neither reserved nor an existing alias key. -/
theorem mutators_preserve_invariants (s : EZState) (hinv : storeInv s) :
    (∀ n c, RESERVED_COMMANDS.contains n = false → hasKey s.aliases n = false →
        storeInv (addCommand s n c)) ∧
    (∀ n c, storeInv (updateCommand s n c).2) ∧
    (∀ n, storeInv (deleteCommand s n).2) ∧
    (∀ o n, storeInv (renameCommand s o n).2) ∧
    (∀ o n, storeInv (copyCommand s o n).2) ∧
    (∀ n c, storeInv (appendCommand s n c).2) ∧
    (∀ n, storeInv (popCommand s n).2) ∧
    (∀ cn al, storeInv (addAlias s cn al).2) ∧
    (∀ cn al, storeInv (removeAlias s cn al).2) := by
  refine ⟨?_, ?_, ?_, ?_, ?_, ?_, ?_, ?_, ?_⟩
  · intro n c hres hal
    cases hk : hasKey s.commands n
    · exact storeInv_setKey_commands_new s n [c] hinv hres hk hal
    · exact storeInv_setKey_commands_existing s n [c] hinv hk
  · intro n c
    exact storeInv_updateCommand s n c hinv
  · intro n
    exact storeInv_deleteCommand s n hinv
  · intro o n
    exact storeInv_renameCommand s o n hinv
  · intro o n
    exact storeInv_copyCommand s o n hinv
  · intro n c
    exact storeInv_appendCommand s n c hinv
  · intro n
    exact storeInv_popCommand s n hinv
  · intro cn al
    exact storeInv_addAlias s cn al hinv
  · intro cn al
    exact storeInv_removeAlias s cn al hinv

/-- Claim C2 witness: a concrete invariant-satisfying state stays
invariant-satisfying after a rename. -/
theorem mutators_preserve_invariants_witness :
    storeInv (renameCommand ⟨[("greet", ["echo hi"])], [("hi", "greet")]⟩ "hi" "hello").2 :=
  (mutators_preserve_invariants ⟨[("greet", ["echo hi"])], [("hi", "greet")]⟩
    (by decide)).2.2.2.1 "hi" "hello"

/-- Claim C4, counterexample: in the state with commands {old: [c]} and
aliases {b: new}, every stated precondition of the claim holds (old
resolves to an existing command; new is not reserved, not a command key,
and not an alias key), yet after rename(old, new) the aliases resolving
to new are {b}, while no alias resolved to old before: a pre-existing
alias whose target dangles at new is captured by the rename. -/
theorem rename_preserves_aliases_cex :
    hasKey (⟨[("old", ["c"])], [("b", "new")]⟩ : EZState).commands
      (getPrimaryName ⟨[("old", ["c"])], [("b", "new")]⟩ "old") = true ∧
    RESERVED_COMMANDS.contains "new" = false ∧
    hasKey (⟨[("old", ["c"])], [("b", "new")]⟩ : EZState).commands "new" = false ∧
    hasKey (⟨[("old", ["c"])], [("b", "new")]⟩ : EZState).aliases "new" = false ∧
    getAllAliases (renameCommand ⟨[("old", ["c"])], [("b", "new")]⟩ "old" "new").2 "new"
      ≠ getAllAliases ⟨[("old", ["c"])], [("b", "new")]⟩
          (getPrimaryName ⟨[("old", ["c"])], [("b", "new")]⟩ "old") := by
  decide

/-- Claim C4 (amended): if resolve(old) is an existing command, new is
not reserved, not an existing command, not an existing alias, and
additionally no alias already targets new (which the store invariant
guarantees), then rename(old, new) succeeds, the aliases resolving to new
afterwards are exactly those that resolved to resolve(old) before, the
sequence stored under new equals the one previously stored under
resolve(old), and resolve(old) is no longer a command key. -/
theorem rename_preserves_aliases (s : EZState) (oldName newName : String)
    (hold : hasKey s.commands (getPrimaryName s oldName) = true)
    (hres : RESERVED_COMMANDS.contains newName = false)
    (hcm : hasKey s.commands newName = false)
    (hal : hasKey s.aliases newName = false)
    (hnoal : getAllAliases s newName = []) :
    (renameCommand s oldName newName).1 = true ∧
    getAllAliases (renameCommand s oldName newName).2 newName
      = getAllAliases s (getPrimaryName s oldName) ∧
    getKey (renameCommand s oldName newName).2.commands newName
      = getKey s.commands (getPrimaryName s oldName) ∧
    hasKey (renameCommand s oldName newName).2.commands (getPrimaryName s oldName) = false := by
  have hvalid : isValidNewName newName s.commands s.aliases = true := by
    simp [isValidNewName, hcm, hal]
    exact not_mem_of_contains_false _ _ hres
  have hnone : ∀ p ∈ s.aliases, ¬(p.2 = newName) := by
    intro p hp hpe
    have : (s.aliases.filter (fun q => q.2 == newName)).map Prod.fst = [] := hnoal
    rw [List.map_eq_nil] at this
    rw [List.filter_eq_nil] at this
    exact absurd (by simpa using hpe) (this p hp)
  have hne : getPrimaryName s oldName ≠ newName := by
    intro he
    rw [he, hcm] at hold
    cases hold
  obtain ⟨v, hv⟩ := getKey_eq_some_of_hasKey s.commands (getPrimaryName s oldName) hold
  have hexist : isValidExistingName (getPrimaryName s oldName) s.commands = true := hold
  refine ⟨?_, ?_, ?_, ?_⟩
  · simp [renameCommand, hexist, hvalid]
  · show getAllAliases (renameCommand s oldName newName).2 newName
      = getAllAliases s (getPrimaryName s oldName)
    simp only [renameCommand, hexist, hvalid, Bool.not_true, Bool.or_self,
      Bool.false_eq_true, if_false]
    exact repoint_filter s.aliases (getPrimaryName s oldName) newName hnone
  · simp only [renameCommand, hexist, hvalid, Bool.not_true, Bool.or_self,
      Bool.false_eq_true, if_false]
    show getKey (setKey (delKey s.commands (getPrimaryName s oldName)) newName
      ((getKey s.commands (getPrimaryName s oldName)).getD []))
        newName = getKey s.commands (getPrimaryName s oldName)
    rw [getKey_setKey_self, hv]
    rfl
  · simp only [renameCommand, hexist, hvalid, Bool.not_true, Bool.or_self,
      Bool.false_eq_true, if_false]
    show hasKey (setKey (delKey s.commands (getPrimaryName s oldName)) newName
      ((getKey s.commands (getPrimaryName s oldName)).getD []))
        (getPrimaryName s oldName) = false
    rw [hasKey_setKey, hasKey_delKey]
    simp [hne]

/-- Claim C4 witness: rename greet to hello with alias hi. -/
theorem rename_preserves_aliases_witness :
    getAllAliases (renameCommand ⟨[("greet", ["echo hi"])], [("hi", "greet")]⟩
        "greet" "hello").2 "hello"
      = getAllAliases ⟨[("greet", ["echo hi"])], [("hi", "greet")]⟩ "greet" :=
  (rename_preserves_aliases ⟨[("greet", ["echo hi"])], [("hi", "greet")]⟩ "greet" "hello"
    (by decide) (by decide) (by decide) (by decide) (by decide)).2.1

/-- Claim C5, counterexample: in the state with commands {p: [x], q: [y]}
and aliases {q: p} (reachable by save p, alias q, save q, since save only
checks the reserved set), delete(p) succeeds and removes the alias
binding of q, yet get(q) afterwards still finds the command entry q: the
former alias does not fail to resolve, because its name is also a
command key. -/
theorem delete_removes_aliases_cex :
    getKey (⟨[("p", ["x"]), ("q", ["y"])], [("q", "p")]⟩ : EZState).aliases "q" = some "p" ∧
    (deleteCommand ⟨[("p", ["x"]), ("q", ["y"])], [("q", "p")]⟩ "p").1 = true ∧
    getCommand (deleteCommand ⟨[("p", ["x"]), ("q", ["y"])], [("q", "p")]⟩ "p").2 "q"
      ≠ none := by
  decide

/-- Claim C5 (amended): if resolve(name) is an existing command and no
alias name is simultaneously a command key (which the store invariant
guarantees; alias keys are unique as in any dictionary), then
delete(name) succeeds, resolve(name) is no longer a command key, no
alias targets it afterwards, and get of each former alias returns
not-found; delete fails, changing nothing, when resolve(name) is not an
existing command. -/
theorem delete_removes_aliases (s : EZState) (name : String)
    (hex : hasKey s.commands (getPrimaryName s name) = true)
    (hdisj : ∀ p ∈ s.aliases, hasKey s.commands p.1 = false)
    (hnd : (s.aliases.map Prod.fst).Nodup) :
    (deleteCommand s name).1 = true ∧
    hasKey (deleteCommand s name).2.commands (getPrimaryName s name) = false ∧
    getAllAliases (deleteCommand s name).2 (getPrimaryName s name) = [] ∧
    (∀ a, getKey s.aliases a = some (getPrimaryName s name) →
       getCommand (deleteCommand s name).2 a = none) ∧
    (∀ t n2, hasKey t.commands (getPrimaryName t n2) = false →
       deleteCommand t n2 = (false, t)) := by
  have hexist : isValidExistingName (getPrimaryName s name) s.commands = true := hex
  have hstate : deleteCommand s name
      = (true, ⟨delKey s.commands (getPrimaryName s name),
                removeCommandAliases s.aliases (getPrimaryName s name)⟩) := by
    simp [deleteCommand, hexist]
  refine ⟨?_, ?_, ?_, ?_, ?_⟩
  · rw [hstate]
  · rw [hstate]
    show hasKey (delKey s.commands (getPrimaryName s name)) (getPrimaryName s name) = false
    rw [hasKey_delKey]
    simp
  · rw [hstate]
    show ((removeCommandAliases s.aliases (getPrimaryName s name)).filter
        (fun p => p.2 == getPrimaryName s name)).map Prod.fst = []
    simp [removeCommandAliases, List.filter_filter]
  · intro a ha
    rw [hstate]
    have hmem : (a, getPrimaryName s name) ∈ s.aliases := mem_of_getKey_eq_some _ _ _ ha
    have hA : hasKey s.commands a = false := hdisj (a, getPrimaryName s name) hmem
    have hnokey : hasKey (removeCommandAliases s.aliases (getPrimaryName s name)) a = false :=
      hasKey_removeCommandAliases_self s.aliases (getPrimaryName s name) a hnd ha
    show getKey (delKey s.commands (getPrimaryName s name))
      ((getKey (removeCommandAliases s.aliases (getPrimaryName s name)) a).getD a) = none
    rw [getKey_eq_none_of_not_hasKey _ _ hnokey]
    have hane : a ≠ getPrimaryName s name := by
      intro he
      rw [he] at hA
      rw [hA] at hex
      cases hex
    show getKey (delKey s.commands (getPrimaryName s name)) a = none
    rw [getKey_delKey_ne _ _ _ hane]
    exact getKey_eq_none_of_not_hasKey _ _ hA
  · intro t n2 h
    simp [deleteCommand, isValidExistingName, h]

/-- Claim C5 witness: delete p cascades to the alias q. -/
theorem delete_removes_aliases_witness :
    getCommand (deleteCommand ⟨[("p", ["x"])], [("q", "p")]⟩ "p").2 "q" = none :=
  (delete_removes_aliases ⟨[("p", ["x"])], [("q", "p")]⟩ "p"
    (by decide) (by decide) (by decide)).2.2.2.1 "q" (by decide)

/-- Claim C6, counterexample: in the state with commands {p: [x], q: [y]}
and aliases {q: p} (reachable through the CLI), pop(q) pops the
single-element sequence of the resolved primary p and deletes it with
its aliases, yet a subsequent get(q) is still found: q survives as a
command key, so the claimed not-found outcome fails. -/
theorem pop_single_deletes_cex :
    getPrimaryName ⟨[("p", ["x"]), ("q", ["y"])], [("q", "p")]⟩ "q" = "p" ∧
    getKey (⟨[("p", ["x"]), ("q", ["y"])], [("q", "p")]⟩ : EZState).commands "p"
      = some ["x"] ∧
    (popCommand ⟨[("p", ["x"]), ("q", ["y"])], [("q", "p")]⟩ "q").1 = true ∧
    getCommand (popCommand ⟨[("p", ["x"]), ("q", ["y"])], [("q", "p")]⟩ "q").2 "q"
      ≠ none := by
  decide

/-- Claim C6 (amended): pop(name) succeeds exactly when resolve(name) is
an existing command with a non-empty sequence; when additionally the
store invariants hold and alias keys are unique, a successful pop
removes the last element, and when the sequence thereby becomes empty
the command entry is deleted together with every alias targeting it, so
a subsequent get(name) returns not-found after popping a single-element
sequence. -/
theorem pop_behavior (s : EZState) (name : String) :
    ((popCommand s name).1 = true ↔
      hasKey s.commands (getPrimaryName s name) = true ∧
      ((getKey s.commands (getPrimaryName s name)).getD []).isEmpty = false) ∧
    (∀ cmds, storeInv s → (s.aliases.map Prod.fst).Nodup →
      getKey s.commands (getPrimaryName s name) = some cmds → cmds ≠ [] →
      ((cmds.dropLast ≠ [] →
          getKey (popCommand s name).2.commands (getPrimaryName s name)
            = some cmds.dropLast ∧
          (popCommand s name).2.aliases = s.aliases) ∧
       (cmds.dropLast = [] →
          hasKey (popCommand s name).2.commands (getPrimaryName s name) = false ∧
          getAllAliases (popCommand s name).2 (getPrimaryName s name) = [] ∧
          getCommand (popCommand s name).2 name = none))) := by
  constructor
  · cases hv : hasKey s.commands (getPrimaryName s name)
    · simp [popCommand, isValidExistingName, hv]
    · cases he : ((getKey s.commands (getPrimaryName s name)).getD []).isEmpty
      · simp [popCommand, isValidExistingName, hv, he, apply_ite]
      · simp [popCommand, isValidExistingName, hv, he]
  · intro cmds hinv hnd hpr hne
    obtain ⟨h1, h2, h3⟩ := hinv
    have hkey : hasKey s.commands (getPrimaryName s name) = true :=
      hasKey_of_getKey_eq_some _ _ _ hpr
    have hisEmpty : cmds.isEmpty = false := by
      cases cmds with
      | nil => exact absurd rfl hne
      | cons x xs => rfl
    constructor
    · intro hdrop
      have hdropE : cmds.dropLast.isEmpty = false := by
        cases hd : cmds.dropLast with
        | nil => exact absurd hd hdrop
        | cons x xs => rfl
      have hstate : popCommand s name
          = (true, ⟨setKey s.commands (getPrimaryName s name) cmds.dropLast, s.aliases⟩) := by
        simp [popCommand, isValidExistingName, hkey, hpr, hisEmpty, hdropE]
      rw [hstate]
      exact ⟨getKey_setKey_self _ _ _, rfl⟩
    · intro hdrop
      have hprAl : hasKey s.aliases (getPrimaryName s name) = false := by
        cases hk : hasKey s.aliases (getPrimaryName s name)
        · rfl
        · obtain ⟨v, hv⟩ := getKey_eq_some_of_hasKey _ _ hk
          have hm := mem_of_getKey_eq_some _ _ _ hv
          have hf := h2 _ hm
          rw [hf] at hkey
          cases hkey
      have hresolve : getPrimaryName
          ⟨setKey s.commands (getPrimaryName s name) [], s.aliases⟩
          (getPrimaryName s name) = getPrimaryName s name := by
        show (getKey s.aliases (getPrimaryName s name)).getD (getPrimaryName s name)
          = getPrimaryName s name
        rw [getKey_eq_none_of_not_hasKey _ _ hprAl]
        rfl
      have hkey2 : hasKey (setKey s.commands (getPrimaryName s name) [])
          (getPrimaryName s name) = true := by
        unfold hasKey
        rw [getKey_setKey_self]
        rfl
      have hstate : popCommand s name
          = (true, (deleteCommand ⟨setKey s.commands (getPrimaryName s name) [], s.aliases⟩
              (getPrimaryName s name)).2) := by
        simp [popCommand, isValidExistingName, hkey, hpr, hisEmpty, hdrop]
      have hdel : deleteCommand ⟨setKey s.commands (getPrimaryName s name) [], s.aliases⟩
          (getPrimaryName s name)
          = (true, ⟨delKey (setKey s.commands (getPrimaryName s name) [])
                      (getPrimaryName s name),
                    removeCommandAliases s.aliases (getPrimaryName s name)⟩) := by
        simp [deleteCommand, hresolve, isValidExistingName, hkey2]
      rw [hstate, hdel]
      refine ⟨?_, ?_, ?_⟩
      · show hasKey (delKey (setKey s.commands (getPrimaryName s name) [])
          (getPrimaryName s name)) (getPrimaryName s name) = false
        rw [hasKey_delKey]
        simp
      · show ((removeCommandAliases s.aliases (getPrimaryName s name)).filter
            (fun p => p.2 == getPrimaryName s name)).map Prod.fst = []
        simp [removeCommandAliases, List.filter_filter]
      · cases hn : getKey s.aliases name with
        | none =>
          have hrn : getPrimaryName s name = name := by
            show (getKey s.aliases name).getD name = name
            rw [hn]
            rfl
          have hnoal : hasKey (removeCommandAliases s.aliases (getPrimaryName s name))
              name = false := by
            cases hk : hasKey (removeCommandAliases s.aliases (getPrimaryName s name)) name
            · rfl
            · have := hasKey_filter_le _ _ _ hk
              unfold hasKey at this
              rw [hn] at this
              cases this
          show getKey (delKey (setKey s.commands (getPrimaryName s name) [])
            (getPrimaryName s name))
            ((getKey (removeCommandAliases s.aliases (getPrimaryName s name)) name).getD name)
            = none
          rw [getKey_eq_none_of_not_hasKey _ _ hnoal]
          show getKey (delKey (setKey s.commands (getPrimaryName s name) [])
            (getPrimaryName s name)) name = none
          rw [hrn]
          exact getKey_delKey_self _ _
        | some t =>
          have hteq : t = getPrimaryName s name := by
            show t = (getKey s.aliases name).getD name
            rw [hn]
            rfl
          have hnpr : getKey s.aliases name = some (getPrimaryName s name) := by
            rw [hn, hteq]
          have hmem : (name, getPrimaryName s name) ∈ s.aliases :=
            mem_of_getKey_eq_some _ _ _ hnpr
          have hA : hasKey s.commands name = false := h2 _ hmem
          have hnoal : hasKey (removeCommandAliases s.aliases (getPrimaryName s name))
              name = false :=
            hasKey_removeCommandAliases_self s.aliases (getPrimaryName s name) name hnd hnpr
          have hane : name ≠ getPrimaryName s name := by
            intro heq
            rw [← heq] at hkey
            rw [hA] at hkey
            cases hkey
          show getKey (delKey (setKey s.commands (getPrimaryName s name) [])
            (getPrimaryName s name))
            ((getKey (removeCommandAliases s.aliases (getPrimaryName s name)) name).getD name)
            = none
          rw [getKey_eq_none_of_not_hasKey _ _ hnoal]
          show getKey (delKey (setKey s.commands (getPrimaryName s name) [])
            (getPrimaryName s name)) name = none
          rw [getKey_delKey_ne _ _ _ hane,
            getKey_setKey_ne _ _ _ _ hane]
          exact getKey_eq_none_of_not_hasKey _ _ hA

/-- Claim C6 witness: popping the single-element command p through its
alias q deletes the entry and the alias, and get(q) is not found. -/
theorem pop_behavior_witness :
    getCommand (popCommand ⟨[("p", ["x"])], [("q", "p")]⟩ "q").2 "q" = none :=
  (((pop_behavior ⟨[("p", ["x"])], [("q", "p")]⟩ "q").2 ["x"]
    (by decide) (by decide) (by decide) (by decide)).2 (by decide)).2.2

/-- Claim C3 witness: a failing update leaves the empty state unchanged. -/
theorem ops_atomic_on_failure_witness :
    (updateCommand ⟨[], []⟩ "x" "c").2 = (⟨[], []⟩ : EZState) :=
  (ops_atomic_on_failure ⟨[], []⟩).1 "x" "c" (by decide)

/-- Claim C7: the Store load path (ensure_config_exists followed by
load_data, exactly as Config always invokes it) returns the empty
document for every malformed file content and for an absent file, and
surfaces no error on any file content: ensure_config_exists writes the
empty document when the file is absent, and load_data maps a JSON decode
failure to the empty document. -/
theorem store_load_tolerant :
    (∀ text, loadData (ensureConfigExists (FileContent.malformed text))
      = Except.ok ([], [])) ∧
    loadData (ensureConfigExists FileContent.absent) = Except.ok ([], []) ∧
    (∀ f, ∃ out, loadData (ensureConfigExists f) = Except.ok out) := by
  refine ⟨fun _ => rfl, rfl, fun f => ?_⟩
  cases f <;> exact ⟨_, rfl⟩

/-- Claim C8: whenever a load of some file content yields the maps
(c, a), saving those maps and loading again yields exactly (c, a); this
covers legacy documents in which a command value is a single string,
since the first load already normalized it to a one-element sequence. -/
theorem store_roundtrip (f : FileContent) (c : CmdMap) (a : AliasMap)
    (h : loadData f = Except.ok (c, a)) :
    loadData (saveData c a) = Except.ok (c, a) := by
  have hmap : (c.map (fun p => (p.1, CmdVal.vlist p.2))).map
      (fun p => (p.1, normalizeCmdVal p.2)) = c := by
    rw [List.map_map]
    have : ((fun p : String × CmdVal => (p.1, normalizeCmdVal p.2)) ∘
        (fun p : String × List String => (p.1, CmdVal.vlist p.2)))
        = fun p : String × List String => p := by
      funext p
      rfl
    rw [this, List.map_id']
  simp [loadData, saveData, hmap]

/-- Claim C8 witness: a legacy document with a string command value
round-trips to the normalized one-element sequence. -/
theorem store_roundtrip_witness :
    loadData (saveData [("n", ["x"])] [("h", "n")])
      = Except.ok ([("n", ["x"])], [("h", "n")]) :=
  store_roundtrip
    (FileContent.doc ⟨some [("n", CmdVal.str "x")], some [("h", "n")]⟩)
    [("n", ["x"])] [("h", "n")] rfl

end EzCmd
